import Mathlib

/-!
Verification development for the `movement` transaction-sequencing core.

The repository's `protocol-units/sequencing/util/src/lib.rs` exposes the
`Sequencer` / `SharedSequencer` interfaces only; the components behind them
(Submission Queue, Bundle Validator, Block Assembler, Block Log, Sequencer
Facade) are specified in the design document but their implementation is not
part of the excerpt.  Those components are therefore modelled from the spec,
each such definition carrying a doc comment that says so.  The concrete
conversion code in
`protocol-units/sov-modules/sov-aptos-vm/src/evm/primitive_types.rs`
(`Block::seal`, `From<&SealedBlock> for BlockEnv`,
`From<TransactionSignedAndRecovered> for TransactionSignedEcRecovered`) is
embedded directly from the source.
-/

namespace Movement

/-- Modelled from the spec: a Transaction is an opaque, immutable payload
with a unique identity derived from its content and an intended execution
domain (src only declares it via `movement_types::Transaction`).  The
identity is modelled as a `Nat`; the payload is opaque to the sequencer. -/
structure Transaction where
  ident : Nat
  domain : Nat
deriving DecidableEq, Repr

/-- Modelled from the spec: an AtomicTransactionBundle is an ordered
sequence of Transactions that must land in one block in the given relative
order or not at all; emptiness is rejected by validation, not by the type. -/
structure ATB where
  txs : List Transaction
deriving DecidableEq, Repr

/-- Modelled from the spec: a sequencing entry is either a standalone
Transaction or a fully-materialized ATB kept as a single unit. -/
inductive Entry where
  | tx (t : Transaction)
  | atb (b : ATB)
deriving DecidableEq, Repr

/-- The transactions carried by an entry (an ATB contributes its members in
their original relative order). -/
def Entry.txs : Entry → List Transaction
  | .tx t => [t]
  | .atb b => b.txs

/-- The transaction identities carried by an entry. -/
def Entry.ids (e : Entry) : List Nat := e.txs.map Transaction.ident

/-- Modelled from the spec: a Block is an ordered sequence of sequencing
entries plus a monotonically increasing height (genesis height 0) and a
reference to the previous block's identity (modelled as its height). -/
structure Block where
  height : Nat
  parent : Option Nat
  entries : List Entry
deriving DecidableEq, Repr

/-- The block's transaction stream: its entries flattened in order. -/
def Block.txs (b : Block) : List Transaction := b.entries.flatMap Entry.txs

/-- Modelled from the spec: the Block Log, an append-only, monotonically
height-indexed store of finalized blocks; `blocks` is in append order,
genesis first. -/
structure BlockLog where
  blocks : List Block
deriving DecidableEq, Repr

/-- Log errors of the spec's taxonomy (`NotFound`/`Empty` are modelled by
`Option` results of `get`/`tip`). -/
inductive LogError where
  | HeightConflict
deriving DecidableEq, Repr

/-- Modelled from the spec: `tip()` returns the current highest block, or
none (`Empty`) if no block exists yet. -/
def BlockLog.tip (log : BlockLog) : Option Block := log.blocks.getLast?

/-- Modelled from the spec: `get(height)` returns the Block at that height
or none (`NotFound`). -/
def BlockLog.get (log : BlockLog) (h : Nat) : Option Block :=
  log.blocks.find? (fun b => b.height == h)

/-- The height the next fresh block must carry: `tip height + 1`, or 0 for
genesis when the log is empty. -/
def BlockLog.expectedHeight (log : BlockLog) : Nat :=
  match log.tip with
  | none => 0
  | some b => b.height + 1

/-- Modelled from the spec: `append(block)` accepts only a Block whose
height equals `tip height + 1` (or 0 for genesis); an idempotent append of
an already-appended height+content pair is a no-op success; every other
append fails with `HeightConflict`. -/
def BlockLog.append (log : BlockLog) (b : Block) : Except LogError BlockLog :=
  if b.height = log.expectedHeight then
    .ok ⟨log.blocks ++ [b]⟩
  else if log.blocks.contains b then
    .ok log
  else
    .error .HeightConflict

/-- Contiguity of the log: the stored heights are exactly `0, 1, …` in
order, starting from the genesis value 0. -/
def BlockLog.WellFormed (log : BlockLog) : Prop :=
  log.blocks.map Block.height = List.range log.blocks.length

instance (log : BlockLog) : Decidable log.WellFormed := by
  unfold BlockLog.WellFormed; infer_instance

theorem BlockLog.expectedHeight_eq_length (log : BlockLog)
    (hwf : log.WellFormed) : log.expectedHeight = log.blocks.length := by
  unfold BlockLog.expectedHeight BlockLog.tip
  cases hlog : log.blocks.getLast? with
  | none =>
    have hnil : log.blocks = [] := List.getLast?_eq_none_iff.mp hlog
    simp [hnil]
  | some b =>
    have hne : log.blocks ≠ [] := by
      intro h; rw [h] at hlog; simp at hlog
    have hlen : 0 < log.blocks.length := List.length_pos.mpr hne
    have h1 : log.blocks[log.blocks.length - 1]? = some b := by
      rw [← List.getLast?_eq_getElem? log.blocks]; exact hlog
    have h2 : (log.blocks.map Block.height)[log.blocks.length - 1]? =
        some b.height := by
      rw [List.getElem?_map, h1]; rfl
    rw [hwf] at h2
    have h3 : (List.range log.blocks.length)[log.blocks.length - 1]? =
        some (log.blocks.length - 1) := by
      simp [Nat.sub_lt hlen Nat.one_pos]
    rw [h3] at h2
    have hb : log.blocks.length - 1 = b.height := by
      injection h2
    simp only []
    omega

theorem BlockLog.height_lt_of_mem (log : BlockLog) (hwf : log.WellFormed)
    {b : Block} (hb : b ∈ log.blocks) : b.height < log.blocks.length := by
  have : b.height ∈ log.blocks.map Block.height := List.mem_map_of_mem _ hb
  rw [hwf] at this
  exact List.mem_range.mp this

theorem BlockLog.append_ok_of_expected (log : BlockLog) (b : Block)
    (h : b.height = log.expectedHeight) :
    log.append b = .ok ⟨log.blocks ++ [b]⟩ := by
  unfold BlockLog.append
  rw [if_pos h]

theorem BlockLog.append_preserves_wf (log : BlockLog) (b : Block)
    (hwf : log.WellFormed) (log' : BlockLog)
    (h : log.append b = .ok log') : log'.WellFormed := by
  unfold BlockLog.append at h
  split at h
  case isTrue hh =>
    cases h
    show (log.blocks ++ [b]).map Block.height =
      List.range ((log.blocks ++ [b]).length)
    simp only [List.map_append, List.map_cons, List.map_nil,
      List.length_append, List.length_cons, List.length_nil]
    rw [hwf, hh, log.expectedHeight_eq_length hwf]
    simp [List.range_succ]
  case isFalse =>
    split at h
    · cases h; exact hwf
    · cases h

/-- Fresh blocks of genesis height 0 and successor heights for concrete
evaluation of the Block Log operations. -/
def blk0 : Block := ⟨0, none, [.tx ⟨1, 0⟩]⟩

def blk1 : Block := ⟨1, some 0, [.tx ⟨2, 0⟩]⟩

def blk2 : Block := ⟨2, some 1, []⟩

def log2 : BlockLog := ⟨[blk0, blk1]⟩

/-- C1 counterexample: the Block Log with blocks at heights 0 and 1 accepts
a repeated `append` of the height-0 block (idempotent no-op success), even
though its height 0 differs from tip height + 1 = 2 — so "append succeeds
only when the block's height equals tip height + 1" is false as stated. -/
theorem C1_counterexample :
    log2.append blk0 = .ok log2 ∧ blk0.height ≠ log2.expectedHeight :=
  ⟨rfl, by decide⟩

/-- C1 (amended): for a well-formed Block Log, an `append` of a block NOT
already in the log succeeds exactly when the block's height equals tip
height + 1 (or 0 for an empty log); an append at height tip + 2 fails with
`HeightConflict`; and every successful append preserves contiguity of the
stored heights starting from the genesis value 0. -/
theorem C1_append_height_discipline (log : BlockLog) (b : Block)
    (hwf : log.WellFormed) :
    (b ∉ log.blocks → ((log.append b).isOk ↔ b.height = log.expectedHeight)) ∧
    (∀ t, log.tip = some t → b.height = t.height + 2 →
      log.append b = .error .HeightConflict) ∧
    (∀ log', log.append b = .ok log' → log'.WellFormed) := by
  refine ⟨?_, ?_, fun log' h => log.append_preserves_wf b hwf log' h⟩
  · intro hnm
    constructor
    · intro hok
      unfold BlockLog.append at hok
      split at hok
      case isTrue hh => exact hh
      case isFalse hh =>
        split at hok
        case isTrue hc =>
          exact absurd (List.elem_iff.mp hc) hnm
        case isFalse => simp [Except.isOk, Except.toBool] at hok
    · intro hh
      rw [log.append_ok_of_expected b hh]
      rfl
  · intro t ht hh
    have hexp : log.expectedHeight = t.height + 1 := by
      unfold BlockLog.expectedHeight
      rw [ht]
    have hne : ¬ b.height = log.expectedHeight := by omega
    have hnm : ¬ log.blocks.contains b := by
      intro hc
      have hmem := List.elem_iff.mp hc
      have := log.height_lt_of_mem hwf hmem
      rw [← log.expectedHeight_eq_length hwf] at this
      omega
    unfold BlockLog.append
    rw [if_neg hne, if_neg (by simpa using hnm)]

/-- C1 witness: the discipline instantiated on the two-block log — the
fresh height-2 block is accepted, and a height-3 block (tip height + 2)
is rejected with `HeightConflict`. -/
theorem C1_witness :
    log2.WellFormed ∧ blk2 ∉ log2.blocks ∧
    ((log2.append blk2).isOk ↔ blk2.height = log2.expectedHeight) ∧
    log2.append ⟨3, some 1, []⟩ = .error .HeightConflict :=
  ⟨by decide, by decide,
    (C1_append_height_discipline log2 blk2 (by decide)).1 (by decide),
    (C1_append_height_discipline log2 ⟨3, some 1, []⟩ (by decide)).2.1
      blk1 rfl (by decide)⟩

/-- C3: repeated `append` of a block already in a well-formed Block Log is
a no-op success — it returns success and the log state (its block list,
hence the tip and the occupancy) is exactly the state before the call. -/
theorem C3_idempotent_append (log : BlockLog) (b : Block)
    (hwf : log.WellFormed) (hb : b ∈ log.blocks) :
    log.append b = .ok log := by
  have hlt := log.height_lt_of_mem hwf hb
  rw [← log.expectedHeight_eq_length hwf] at hlt
  unfold BlockLog.append
  rw [if_neg (by omega), if_pos (List.elem_iff.mpr hb)]

/-- C3 witness: re-appending the height-1 block of the two-block log
returns success with the log unchanged. -/
theorem C3_witness : log2.append blk1 = .ok log2 :=
  C3_idempotent_append log2 blk1 (by decide) (by decide)

/-- The member identities of a bundle, in bundle order. -/
def ATB.memberIds (a : ATB) : List Nat := a.txs.map Transaction.ident

/-- Validation errors of the Bundle Validator. -/
inductive ValidateError where
  | EmptyBundle
  | InternalDuplicate
deriving DecidableEq, Repr

/-- Modelled from the spec: the Bundle Validator's pure `validate(bundle)`
— fails with `EmptyBundle` if the bundle has no members, with
`InternalDuplicate` if a Transaction identity repeats within the bundle. -/
def validate (a : ATB) : Except ValidateError Unit :=
  if a.txs.isEmpty then .error .EmptyBundle
  else if a.memberIds.Nodup then .ok ()
  else .error .InternalDuplicate

/-- Admission errors of the Submission Queue. -/
inductive AdmitError where
  | QueueFull
  | DuplicateMember
deriving DecidableEq, Repr

/-- Modelled from the spec: the Submission Queue — a staging area with a
configured capacity bound holding accepted, not-yet-sequenced entries in
arrival order (head first). -/
structure Queue where
  capacity : Nat
  entries : List Entry
deriving DecidableEq, Repr

/-- All transaction identities currently staged in the queue. -/
def Queue.memberIds (q : Queue) : List Nat := q.entries.flatMap Entry.ids

/-- Modelled from the spec: `admit(entry)` inserts a staged entry at the
tail; fails with `QueueFull` when the capacity bound is exceeded, and with
`DuplicateMember` if any Transaction identity inside the entry already
exists in the queue.  (The spec leaves duplicate detection against
finalized blocks to an external collaborator, so the check here spans the
live queue.) -/
def Queue.admitEntry (q : Queue) (e : Entry) : Except AdmitError Queue :=
  if q.capacity ≤ q.entries.length then .error .QueueFull
  else if e.ids.any (fun i => q.memberIds.contains i) then
    .error .DuplicateMember
  else .ok ⟨q.capacity, q.entries ++ [e]⟩

/-- Errors surfaced synchronously by `publish`. -/
inductive PublishError where
  | validation (e : ValidateError)
  | admission (e : AdmitError)
deriving DecidableEq, Repr

/-- Modelled from the spec: the bundle surface's `publish` routes the ATB
through the Bundle Validator before admission; a rejected bundle never
reaches the queue. -/
def publishBundle (q : Queue) (a : ATB) : Except PublishError Queue :=
  match validate a with
  | .error e => .error (.validation e)
  | .ok () =>
    match q.admitEntry (.atb a) with
    | .error e => .error (.admission e)
    | .ok q' => .ok q'

/-- Modelled from the spec: the single-transaction surface's `publish`
validates nothing beyond identity-duplication (delegated to the queue)
and admits the transaction. -/
def publishTx (q : Queue) (t : Transaction) : Except PublishError Queue :=
  match q.admitEntry (.tx t) with
  | .error e => .error (.admission e)
  | .ok q' => .ok q'

/-- C4: `validate` fails with `EmptyBundle` exactly when the bundle has no
members, and with `InternalDuplicate` exactly when it is non-empty and a
member identity repeats; whenever `validate` rejects, `publishBundle`
surfaces that very error — the queue admission step never runs, so no
queue state results from the call and the queue occupancy is unchanged. -/
theorem C4_validate_gates_publish (a : ATB) :
    (validate a = .error .EmptyBundle ↔ a.txs = []) ∧
    (validate a = .error .InternalDuplicate ↔
      (a.txs ≠ [] ∧ ¬ a.memberIds.Nodup)) ∧
    (∀ e, validate a = .error e →
      ∀ q, publishBundle q a = .error (.validation e)) := by
  refine ⟨?_, ?_, ?_⟩
  · unfold validate
    split
    case isTrue hh =>
      simp only [List.isEmpty_iff] at hh
      simp [hh]
    case isFalse hh =>
      simp only [List.isEmpty_iff] at hh
      split <;> simp [hh]
  · unfold validate
    split
    case isTrue hh =>
      simp only [List.isEmpty_iff] at hh
      simp [hh]
    case isFalse hh =>
      simp only [List.isEmpty_iff] at hh
      split
      case isTrue hn => simp [hh, hn]
      case isFalse hn => simp [hh, hn]
  · intro e he q
    unfold publishBundle
    rw [he]

/-- C4 witness: a bundle whose two members share identity 5 is rejected
with `InternalDuplicate`, and `publishBundle` on a queue of capacity 4
surfaces exactly that validation error. -/
theorem C4_witness :
    publishBundle ⟨4, []⟩ ⟨[⟨5, 0⟩, ⟨5, 1⟩]⟩ =
      .error (.validation .InternalDuplicate) :=
  (C4_validate_gates_publish ⟨[⟨5, 0⟩, ⟨5, 1⟩]⟩).2.2
    .InternalDuplicate rfl ⟨4, []⟩

/-- Combined state of the sequencing core: the Submission Queue and the
Block Log. -/
structure SeqState where
  queue : Queue
  log : BlockLog
deriving DecidableEq, Repr

/-- Modelled from the spec: the assembler places the drained entries into a
new Block at the next height (`tip height + 1`, or 0 for genesis) in the
exact order returned by drain, referencing the previous tip. -/
def mkBlock (log : BlockLog) (batch : List Entry) : Block :=
  ⟨log.expectedHeight, log.tip.map Block.height, batch⟩

/-- Modelled from the spec: one assembly cycle, parametric in the append
attempt so that a Block Log append failure (e.g. persistent storage
becoming unavailable) can be exercised.  On trigger it drains the queue up
to `maxEntries` entries from the head; a drain of zero entries produces no
block; otherwise the new block is appended, and on append failure the
drained batch is restored to the head of the queue in its original order
before the error is surfaced. -/
def assembleCycleWith
    (appendFn : BlockLog → Block → Except LogError BlockLog)
    (maxEntries : Nat) (st : SeqState) : SeqState × Option LogError :=
  let batch := st.queue.entries.take maxEntries
  let rest := st.queue.entries.drop maxEntries
  if batch.isEmpty then (st, none)
  else
    match appendFn st.log (mkBlock st.log batch) with
    | .ok log' => (⟨⟨st.queue.capacity, rest⟩, log'⟩, none)
    | .error e => (⟨⟨st.queue.capacity, batch ++ rest⟩, st.log⟩, some e)

/-- The assembly cycle against the real Block Log `append`. -/
def assembleCycle (maxEntries : Nat) (st : SeqState) :
    SeqState × Option LogError :=
  assembleCycleWith BlockLog.append maxEntries st

/-- C5: whenever an assembly cycle surfaces an error (the append attempt
failed), the resulting state equals the state before the cycle: the
drained batch has been restored to the head of the Submission Queue in its
original relative order, no drained entry is dropped, and the Block Log is
untouched. -/
theorem C5_failed_append_restores_queue
    (appendFn : BlockLog → Block → Except LogError BlockLog)
    (maxEntries : Nat) (st st' : SeqState) (e : LogError)
    (h : assembleCycleWith appendFn maxEntries st = (st', some e)) :
    st' = st := by
  unfold assembleCycleWith at h
  simp only [] at h
  split at h
  · cases h
  · split at h
    · cases h
    · rw [Prod.mk.injEq] at h
      obtain ⟨h1, -⟩ := h
      rw [← h1]
      obtain ⟨⟨cap, es⟩, lg⟩ := st
      simp [List.take_append_drop]

/-- An append attempt that always fails, standing in for unavailable
persistent storage. -/
def alwaysConflict : BlockLog → Block → Except LogError BlockLog :=
  fun _ _ => .error .HeightConflict

/-- A one-entry starting state for exercising the failure path. -/
def st5 : SeqState := ⟨⟨4, [.tx ⟨7, 0⟩]⟩, ⟨[]⟩⟩

/-- C5 witness: with a failing append attempt, the cycle on a one-entry
queue surfaces the error and the theorem yields the state unchanged. -/
theorem C5_witness :
    assembleCycleWith alwaysConflict 1 st5 = (st5, some .HeightConflict) ∧
    st5 = st5 :=
  ⟨rfl, C5_failed_append_restores_queue alwaysConflict 1 st5 st5
    .HeightConflict rfl⟩

/-- Modelled from the spec: `k` consecutive assembly triggers (size or
time threshold firing `k` times), each running one assembly cycle against
the real Block Log. -/
def runCycles (maxEntries : Nat) : Nat → SeqState → SeqState
  | 0, st => st
  | k + 1, st => runCycles maxEntries k (assembleCycle maxEntries st).1

theorem assembleCycle_empty (m : Nat) (st : SeqState)
    (h : st.queue.entries.take m = []) : (assembleCycle m st).1 = st := by
  unfold assembleCycle assembleCycleWith
  simp [h]

theorem assembleCycle_nonempty (m : Nat) (st : SeqState)
    (h : ¬ st.queue.entries.take m = []) :
    (assembleCycle m st).1 =
      ⟨⟨st.queue.capacity, st.queue.entries.drop m⟩,
        ⟨st.log.blocks ++ [mkBlock st.log (st.queue.entries.take m)]⟩⟩ := by
  unfold assembleCycle assembleCycleWith
  have hap := st.log.append_ok_of_expected
    (mkBlock st.log (st.queue.entries.take m)) rfl
  simp [h, hap]

/-- Every run of assembly cycles splits the starting queue into the
entry lists of the newly produced blocks (in order) followed by the
remaining queue, extends the log by exactly those blocks, and keeps the
queue capacity. -/
theorem runCycles_partition (m k : Nat) (st : SeqState) :
    ∃ nb : List Block,
      (runCycles m k st).log.blocks = st.log.blocks ++ nb ∧
      nb.flatMap Block.entries ++ (runCycles m k st).queue.entries =
        st.queue.entries ∧
      (runCycles m k st).queue.capacity = st.queue.capacity := by
  induction k generalizing st with
  | zero => exact ⟨[], by simp [runCycles]⟩
  | succ k ih =>
    by_cases hb : st.queue.entries.take m = []
    · have hst : (assembleCycle m st).1 = st := assembleCycle_empty m st hb
      have hrun : runCycles m (k + 1) st = runCycles m k st := by
        have hdef : runCycles m (k + 1) st =
            runCycles m k ((assembleCycle m st).1) := rfl
        rw [hdef, hst]
      rw [hrun]
      exact ih st
    · have hst := assembleCycle_nonempty m st hb
      have hrun : runCycles m (k + 1) st =
          runCycles m k ((assembleCycle m st).1) := rfl
      obtain ⟨nb, h1, h2, h3⟩ := ih ((assembleCycle m st).1)
      refine ⟨mkBlock st.log (st.queue.entries.take m) :: nb, ?_, ?_, ?_⟩
      · rw [hrun, h1, hst]
        simp
      · have h2' : nb.flatMap Block.entries ++
            (runCycles m k ((assembleCycle m st).1)).queue.entries =
            st.queue.entries.drop m := by
          rw [h2, hst]
        rw [hrun, List.flatMap_cons, List.append_assoc, h2']
        exact List.take_append_drop m st.queue.entries
      · rw [hrun, h3, hst]

/-- With a positive size bound, every triggered cycle on a non-empty queue
removes at least one entry, so `k` cycles leave at most `length - k`. -/
theorem runCycles_length (m k : Nat) (st : SeqState) (hm : 1 ≤ m) :
    (runCycles m k st).queue.entries.length ≤
      st.queue.entries.length - k := by
  induction k generalizing st with
  | zero => simp [runCycles]
  | succ k ih =>
    by_cases hb : st.queue.entries.take m = []
    · have hnil : st.queue.entries = [] := by
        rcases hes : st.queue.entries with _ | ⟨x, xs⟩
        · rfl
        · rw [hes] at hb
          rcases m with _ | m
          · omega
          · simp at hb
      have hdef : runCycles m (k + 1) st =
          runCycles m k ((assembleCycle m st).1) := rfl
      rw [hdef, assembleCycle_empty m st hb]
      have h1 := ih st
      have hlen0 : st.queue.entries.length = 0 := by rw [hnil]; rfl
      omega
    · have hdef : runCycles m (k + 1) st =
          runCycles m k ((assembleCycle m st).1) := rfl
      rw [hdef]
      have h1 := ih ((assembleCycle m st).1)
      have hlen1 : (assembleCycle m st).1.queue.entries.length =
          st.queue.entries.length - m := by
        rw [assembleCycle_nonempty m st hb]
        simp
      rw [hlen1] at h1
      have hne : st.queue.entries ≠ [] := by
        intro h
        rw [h] at hb
        simp at hb
      have hpos : 0 < st.queue.entries.length :=
        List.length_pos.mpr hne
      omega

/-- C7: once the trigger fires at least `length` times with a positive
size bound, the Submission Queue is fully drained and every admitted entry
occurrence has moved into the Block Log: the occurrence count of any entry
across all blocks equals its old count plus its queued count; in
particular an entry admitted exactly once and absent from the previous log
appears in the final log exactly once — i.e. in exactly one block. -/
theorem C7_admitted_entries_sequenced (m k : Nat) (st : SeqState)
    (hm : 1 ≤ m) (hk : st.queue.entries.length ≤ k) :
    (runCycles m k st).queue.entries = [] ∧
    (∀ e : Entry,
      ((runCycles m k st).log.blocks.flatMap Block.entries).count e =
        (st.log.blocks.flatMap Block.entries).count e +
          st.queue.entries.count e) ∧
    (∀ e : Entry,
      (st.log.blocks.flatMap Block.entries).count e = 0 →
      st.queue.entries.count e = 1 →
      ((runCycles m k st).log.blocks.flatMap Block.entries).count e = 1) := by
  obtain ⟨nb, hb, hq, -⟩ := runCycles_partition m k st
  have hlen := runCycles_length m k st hm
  have hempty : (runCycles m k st).queue.entries = [] := by
    have hz : (runCycles m k st).queue.entries.length = 0 := by omega
    exact List.length_eq_zero.mp hz
  rw [hempty, List.append_nil] at hq
  have hcount : ∀ e : Entry,
      ((runCycles m k st).log.blocks.flatMap Block.entries).count e =
        (st.log.blocks.flatMap Block.entries).count e +
          st.queue.entries.count e := by
    intro e
    rw [hb, List.flatMap_append, List.count_append, hq]
  refine ⟨hempty, hcount, fun e h0 h1 => ?_⟩
  rw [hcount e, h0, h1]

/-- Three admitted entries — a transaction, a two-member bundle and a
final transaction — queued ahead of an empty log. -/
def st7 : SeqState :=
  ⟨⟨8, [.tx ⟨1, 0⟩, .atb ⟨[⟨2, 0⟩, ⟨3, 0⟩]⟩, .tx ⟨4, 0⟩]⟩, ⟨[]⟩⟩

/-- C7 witness: three cycles of size bound 2 drain the three-entry queue
and the admitted bundle occurs exactly once across the produced blocks. -/
theorem C7_witness :
    (runCycles 2 3 st7).queue.entries = [] ∧
    ((runCycles 2 3 st7).log.blocks.flatMap Block.entries).count
      (.atb ⟨[⟨2, 0⟩, ⟨3, 0⟩]⟩) = 1 :=
  ⟨(C7_admitted_entries_sequenced 2 3 st7 (by decide) (by decide)).1,
   (C7_admitted_entries_sequenced 2 3 st7 (by decide) (by decide)).2.2
     (.atb ⟨[⟨2, 0⟩, ⟨3, 0⟩]⟩) (by decide) (by decide)⟩

/-- In a duplicate-free flattening, two members of the base list that both
contribute the same element are the same member. -/
theorem nodup_flatMap_eq {α β : Type} (l : List α) (g : α → List β)
    (hnd : (l.flatMap g).Nodup)
    {x y : α} (hx : x ∈ l) (hy : y ∈ l) {a : β}
    (hax : a ∈ g x) (hay : a ∈ g y) : x = y := by
  by_contra hxy
  obtain ⟨s, t, hl⟩ := List.append_of_mem hx
  rw [hl] at hnd hy
  have hflat : (s ++ x :: t).flatMap g =
      s.flatMap g ++ g x ++ t.flatMap g := by
    simp [List.flatMap_append, List.flatMap_cons, List.append_assoc]
  rw [hflat] at hnd
  obtain ⟨hnd1, -, hdis⟩ := List.nodup_append.mp hnd
  obtain ⟨-, -, hdis1⟩ := List.nodup_append.mp hnd1
  rcases List.mem_append.mp hy with hys | hyt
  · exact hdis1 (List.mem_flatMap.mpr ⟨y, hys, hay⟩) hax
  · rcases List.mem_cons.mp hyt with h | hyt
    · exact hxy h.symm
    · exact hdis (List.mem_append.mpr (Or.inr hax))
        (List.mem_flatMap.mpr ⟨y, hyt, hay⟩)

/-- The blocks appended to the Block Log during a run of assembly
cycles, in production order. -/
def producedBlocks (m k : Nat) (st : SeqState) : List Block :=
  (runCycles m k st).log.blocks.drop st.log.blocks.length

/-- Once the queue is fully drained, the entry lists of the produced
blocks concatenate to exactly the starting queue, in order. -/
theorem producedBlocks_flat (m k : Nat) (st : SeqState)
    (hm : 1 ≤ m) (hk : st.queue.entries.length ≤ k) :
    (producedBlocks m k st).flatMap Block.entries = st.queue.entries := by
  obtain ⟨nb, hb, hq, -⟩ := runCycles_partition m k st
  have hlen := runCycles_length m k st hm
  have hempty : (runCycles m k st).queue.entries = [] := by
    have hz : (runCycles m k st).queue.entries.length = 0 := by omega
    exact List.length_eq_zero.mp hz
  rw [hempty, List.append_nil] at hq
  unfold producedBlocks
  rw [hb, List.drop_left, hq]

/-- C2: for an accepted bundle staged exactly once in a queue whose
transaction identities are duplicate-free, a full run of assembly cycles
places the bundle in a block where its members appear consecutively and
in their original relative order; any produced block containing any of
the bundle's member transactions is a block containing the whole bundle
entry (no partial inclusion, no split across two blocks); and the bundle
occurs exactly once across all produced blocks. -/
theorem C2_bundle_atomicity (m k : Nat) (st : SeqState) (atb : ATB)
    (hm : 1 ≤ m) (hk : st.queue.entries.length ≤ k)
    (hcount : st.queue.entries.count (.atb atb) = 1)
    (hnd : (st.queue.entries.flatMap Entry.ids).Nodup) :
    (∃ b ∈ producedBlocks m k st, Entry.atb atb ∈ b.entries ∧
      ∃ pre post, b.txs = pre ++ atb.txs ++ post) ∧
    (∀ b ∈ producedBlocks m k st, ∀ t ∈ atb.txs, t ∈ b.txs →
      Entry.atb atb ∈ b.entries) ∧
    ((producedBlocks m k st).flatMap Block.entries).count (.atb atb) = 1 := by
  have hflat := producedBlocks_flat m k st hm hk
  have hmem : Entry.atb atb ∈ st.queue.entries := by
    have hpos : 0 < st.queue.entries.count (.atb atb) := by omega
    exact List.count_pos_iff.mp hpos
  refine ⟨?_, ?_, ?_⟩
  · have hmem' :
        Entry.atb atb ∈ (producedBlocks m k st).flatMap Block.entries := by
      rw [hflat]
      exact hmem
    obtain ⟨b, hbmem, hbe⟩ := List.mem_flatMap.mp hmem'
    refine ⟨b, hbmem, hbe, ?_⟩
    obtain ⟨s, t, hsplit⟩ := List.append_of_mem hbe
    refine ⟨s.flatMap Entry.txs, t.flatMap Entry.txs, ?_⟩
    unfold Block.txs
    rw [hsplit]
    simp [List.flatMap_append, List.flatMap_cons, List.append_assoc,
      Entry.txs]
  · intro b hbmem tx htx htxb
    unfold Block.txs at htxb
    obtain ⟨e0, he0, htxe0⟩ := List.mem_flatMap.mp htxb
    have he0q : e0 ∈ st.queue.entries := by
      rw [← hflat]
      exact List.mem_flatMap.mpr ⟨b, hbmem, he0⟩
    have heq : e0 = Entry.atb atb := by
      apply nodup_flatMap_eq st.queue.entries Entry.ids hnd he0q hmem
        (a := tx.ident)
      · exact List.mem_map_of_mem _ htxe0
      · exact List.mem_map_of_mem _ htx
    rw [← heq]
    exact he0
  · rw [hflat]
    exact hcount

/-- A two-member bundle and a standalone transaction staged ahead of an
empty log (the spec's size-threshold-3 scenario). -/
def stB : SeqState :=
  ⟨⟨8, [.atb ⟨[⟨4, 0⟩, ⟨5, 0⟩]⟩, .tx ⟨6, 0⟩]⟩, ⟨[]⟩⟩

/-- C2 witness: after a full run, the staged two-member bundle occurs
exactly once across the produced blocks. -/
theorem C2_witness :
    ((producedBlocks 3 2 stB).flatMap Block.entries).count
      (.atb ⟨[⟨4, 0⟩, ⟨5, 0⟩]⟩) = 1 :=
  (C2_bundle_atomicity 3 2 stB ⟨[⟨4, 0⟩, ⟨5, 0⟩]⟩ (by decide) (by decide)
    (by decide) (by decide)).2.2

/-- The height a consumer waits for next: 0 for a fresh consumer, last
observed height + 1 thereafter. -/
def nextHeight : Option Nat → Nat
  | none => 0
  | some h => h + 1

/-- Modelled from the spec: the facade's `wait_for_next_block` for a
consumer whose last-observed height is `lastSeen`.  The call is a
suspension point, so the outer `Option` distinguishes "has not returned
yet" (`none`, the consumer stays parked — blocking, not polling) from a
return: `some none` is the `None` returned on graceful shutdown, and
`some (some b)` delivers the next block once a block with height greater
than `lastSeen` exists. -/
def waitForNextBlock (log : BlockLog) (shutdown : Bool)
    (lastSeen : Option Nat) : Option (Option Block) :=
  if shutdown then some none
  else
    match log.get (nextHeight lastSeen) with
    | some b => some (some b)
    | none => none

/-- Modelled from the spec: a consumer repeatedly calling
`wait_for_next_block` (no shutdown, no cancellation), updating its
last-observed height with each returned block; the list collects the
blocks returned by up to `k` calls. -/
def consumerRun (log : BlockLog) : Nat → Option Nat → List Block
  | 0, _ => []
  | k + 1, c =>
    match log.get (nextHeight c) with
    | some b => b :: consumerRun log k (some b.height)
    | none => []

theorem consumerRun_succ (log : BlockLog) (k : Nat) (c : Option Nat) :
    consumerRun log (k + 1) c =
      match log.get (nextHeight c) with
      | some b => b :: consumerRun log k (some b.height)
      | none => [] := rfl

theorem consumerRun_height (log : BlockLog) :
    ∀ (k : Nat) (c : Option Nat) (i : Nat)
      (hi : i < (consumerRun log k c).length),
      ((consumerRun log k c).get ⟨i, hi⟩).height = nextHeight c + i := by
  intro k
  induction k with
  | zero =>
    intro c i hi
    simp [consumerRun] at hi
  | succ k ih =>
    intro c i hi
    cases hg : log.get (nextHeight c) with
    | none =>
      exfalso
      have hrun : consumerRun log (k + 1) c = [] := by
        rw [consumerRun_succ, hg]
      rw [hrun] at hi
      simp at hi
    | some b =>
      have hrun : consumerRun log (k + 1) c =
          b :: consumerRun log k (some b.height) := by
        rw [consumerRun_succ, hg]
      have hb : b.height = nextHeight c := by
        unfold BlockLog.get at hg
        have hp := List.find?_some hg
        simpa using hp
      cases i with
      | zero =>
        have h0 : (consumerRun log (k + 1) c).get ⟨0, hi⟩ = b := by
          rw [List.get_of_eq hrun]
          rfl
        rw [h0, hb]
        rfl
      | succ i =>
        have hlen : i < (consumerRun log k (some b.height)).length := by
          rw [hrun] at hi
          simpa using Nat.lt_of_succ_lt_succ hi
        have hstep : (consumerRun log (k + 1) c).get ⟨i + 1, hi⟩ =
            (consumerRun log k (some b.height)).get ⟨i, hlen⟩ := by
          rw [List.get_of_eq hrun]
          rfl
        rw [hstep, ih (some b.height) i hlen]
        have hnx : nextHeight (some b.height) = b.height + 1 := rfl
        rw [hnx, hb]
        omega

/-- C6: `wait_for_next_block` never yields `None` while the facade is
live (even with no block available the consumer stays parked instead),
yields `None` on graceful shutdown, returns only the block at the
consumer's next height — strictly greater than any last-observed height —
and a consumer repeatedly calling it observes exactly the consecutive
heights from its cursor on: strictly increasing, none skipped, none
repeated. -/
theorem C6_wait_returns_successive_heights (log : BlockLog)
    (c : Option Nat) (k : Nat) :
    (waitForNextBlock log false c ≠ some none) ∧
    (waitForNextBlock log true c = some none) ∧
    (∀ b, waitForNextBlock log false c = some (some b) →
      b.height = nextHeight c ∧ ∀ h, c = some h → h < b.height) ∧
    (∀ i (hi : i < (consumerRun log k c).length),
      ((consumerRun log k c).get ⟨i, hi⟩).height = nextHeight c + i) := by
  refine ⟨?_, rfl, ?_, consumerRun_height log k c⟩
  · unfold waitForNextBlock
    cases hg : log.get (nextHeight c) with
    | none => simp
    | some b => simp
  · intro b hw
    unfold waitForNextBlock at hw
    cases hg : log.get (nextHeight c) with
    | none =>
      rw [if_neg (by simp)] at hw
      rw [hg] at hw
      cases hw
    | some b' =>
      rw [if_neg (by simp)] at hw
      rw [hg] at hw
      have hbb : b' = b := by
        injection hw with hw1
        injection hw1
      have hb : b.height = nextHeight c := by
        unfold BlockLog.get at hg
        have hp := List.find?_some hg
        rw [hbb] at hp
        simpa using hp
      refine ⟨hb, fun h hc => ?_⟩
      rw [hb, hc]
      have hnx : nextHeight (some h) = h + 1 := rfl
      rw [hnx]
      omega

/-- A three-block log at heights 0, 1, 2 for concrete consumption. -/
def log3 : BlockLog := ⟨[blk0, blk1, blk2]⟩

/-- C6 witness: a consumer last at height 0 making two calls against the
three-block log sees height 2 on its second call: `nextHeight (some 0) + 1`. -/
theorem C6_witness :
    ((consumerRun log3 2 (some 0)).get ⟨1, by decide⟩).height =
      nextHeight (some 0) + 1 :=
  (C6_wait_returns_successive_heights log3 (some 0) 2).2.2.2 1 (by decide)

end Movement

namespace Evm

/-- 256-bit words (`revm::primitives::B256`), modelled as `Nat`. -/
abbrev B256 := Nat

/-- 20-byte account addresses (`revm::primitives::Address`), modelled as
`Nat`. -/
abbrev Address := Nat

/-- Embedded from `reth_primitives::Header`, restricted to the fields the
code in `primitive_types.rs` reads. -/
structure Header where
  number : Nat
  beneficiary : Address
  timestamp : Nat
  mix_hash : B256
  base_fee_per_gas : Option Nat
  gas_limit : Nat
deriving DecidableEq, Repr

/-- Embedded from `reth_primitives::SealedHeader`: the header together
with its seal hash; field reads on a sealed header dereference to the
inner header. -/
structure SealedHeader where
  header : Header
  hash : B256
deriving DecidableEq, Repr

/-- `Header::seal_slow` hashes the header and attaches the hash; the hash
computation (keccak of the RLP encoding) is abstracted as `hashFn`. -/
def Header.seal_slow (h : Header) (hashFn : Header → B256) : SealedHeader :=
  ⟨h, hashFn h⟩

/-- Embedded from `primitive_types.rs`: the `Range<u64>` of transaction
indices a block holds (`start..stop`, `stop` standing for Rust's end
bound). -/
structure TxRange where
  start : Nat
  stop : Nat
deriving DecidableEq, Repr

/-- Embedded from `primitive_types.rs`: `Block` — a header plus the
transactions range. -/
structure Block where
  header : Header
  transactions : TxRange
deriving DecidableEq, Repr

/-- Embedded from `primitive_types.rs`: `SealedBlock` — a sealed header
plus the transactions range. -/
structure SealedBlock where
  header : SealedHeader
  transactions : TxRange
deriving DecidableEq, Repr

/-- Embedded from `Block::seal` in `primitive_types.rs`: seal the header,
keep the transactions range. -/
def Block.seal (b : Block) (hashFn : Header → B256) : SealedBlock :=
  ⟨b.header.seal_slow hashFn, b.transactions⟩

/-- Embedded from `primitive_types.rs`: `BlockEnv` with the fields that
the `Default` and `From<&SealedBlock>` impls populate (`number`,
`coinbase`, `timestamp`, `prevrandao`, `basefee`, `gas_limit`; the struct
declaration in the excerpt lists a divergent field set — the impls are
authoritative for the conversion verified here). -/
structure BlockEnv where
  number : Nat
  coinbase : Address
  timestamp : Nat
  prevrandao : B256
  basefee : Nat
  gas_limit : Nat
deriving DecidableEq, Repr

/-- Embedded from `impl From<&SealedBlock> for BlockEnv`: field reads
`block.header.*` dereference to the inner header; `unwrap_or_default()`
on the optional base fee yields 0 for `None`. -/
def BlockEnv.ofSealedBlock (block : SealedBlock) : BlockEnv :=
  { number := block.header.header.number
    coinbase := block.header.header.beneficiary
    timestamp := block.header.header.timestamp
    prevrandao := block.header.header.mix_hash
    basefee := block.header.header.base_fee_per_gas.getD 0
    gas_limit := block.header.header.gas_limit }

/-- Embedded from `reth_primitives::TransactionSigned`, opaque to this
code: only carried around, never inspected. -/
structure TransactionSigned where
  payload : Nat
deriving DecidableEq, Repr

/-- Embedded from `primitive_types.rs`: a signed transaction with its
recovered signer and the number of the block it was added to. -/
structure TransactionSignedAndRecovered where
  signer : Address
  signed_transaction : TransactionSigned
  block_number : Nat
deriving DecidableEq, Repr

/-- Embedded from `reth_primitives::TransactionSignedEcRecovered`: a
signed transaction paired with its signer. -/
structure TransactionSignedEcRecovered where
  signed_transaction : TransactionSigned
  signer : Address
deriving DecidableEq, Repr

/-- Embedded from
`reth_primitives::TransactionSignedEcRecovered::from_signed_transaction`:
pairs the given transaction with the given signer. -/
def TransactionSignedEcRecovered.from_signed_transaction
    (signed_transaction : TransactionSigned) (signer : Address) :
    TransactionSignedEcRecovered :=
  ⟨signed_transaction, signer⟩

/-- Embedded from `impl From<TransactionSignedAndRecovered> for
TransactionSignedEcRecovered` in `primitive_types.rs`. -/
def TransactionSignedEcRecovered.ofRecovered
    (value : TransactionSignedAndRecovered) : TransactionSignedEcRecovered :=
  .from_signed_transaction value.signed_transaction value.signer

/-- C8: `Block::seal` leaves the transactions range unchanged and only
replaces the header by its sealed form, whatever the hash function
computes. -/
theorem C8_seal_preserves_transactions (hashFn : Header → B256) (b : Block) :
    (b.seal hashFn).transactions = b.transactions ∧
    (b.seal hashFn).header = b.header.seal_slow hashFn ∧
    (b.seal hashFn).header.header = b.header :=
  ⟨rfl, rfl, rfl⟩

/-- C9: the `BlockEnv` conversion maps a missing base fee to 0 and copies
the header's timestamp, mix hash (as prevrandao), beneficiary (as
coinbase) and gas limit unchanged. -/
theorem C9_blockEnv_conversion (b : SealedBlock) :
    (b.header.header.base_fee_per_gas = none →
      (BlockEnv.ofSealedBlock b).basefee = 0) ∧
    (BlockEnv.ofSealedBlock b).timestamp = b.header.header.timestamp ∧
    (BlockEnv.ofSealedBlock b).prevrandao = b.header.header.mix_hash ∧
    (BlockEnv.ofSealedBlock b).coinbase = b.header.header.beneficiary ∧
    (BlockEnv.ofSealedBlock b).gas_limit = b.header.header.gas_limit := by
  refine ⟨fun h => ?_, rfl, rfl, rfl, rfl⟩
  simp [BlockEnv.ofSealedBlock, h]

/-- A sealed block whose header has no base fee. -/
def sbNoFee : SealedBlock := ⟨⟨⟨0, 1, 2, 3, none, 4⟩, 9⟩, ⟨0, 0⟩⟩

/-- C9 witness: on a concrete sealed block without a base fee the
conversion produces `basefee = 0`. -/
theorem C9_witness : (BlockEnv.ofSealedBlock sbNoFee).basefee = 0 :=
  (C9_blockEnv_conversion sbNoFee).1 rfl

/-- C10: the conversion to `TransactionSignedEcRecovered` preserves the
signer and the signed transaction and is insensitive to `block_number`. -/
theorem C10_recovered_conversion (v : TransactionSignedAndRecovered) :
    (TransactionSignedEcRecovered.ofRecovered v).signer = v.signer ∧
    (TransactionSignedEcRecovered.ofRecovered v).signed_transaction =
      v.signed_transaction ∧
    ∀ n : Nat,
      TransactionSignedEcRecovered.ofRecovered
        ⟨v.signer, v.signed_transaction, n⟩ =
        TransactionSignedEcRecovered.ofRecovered v :=
  ⟨rfl, rfl, fun _ => rfl⟩

end Evm
